import Mathlib

/-!
Verification development for the salt packaging helper commands
(`tools/pkg.py`): `set-salt-version`, `pre-archive-cleanup` and
`generate-hashes`.

The Python source is shallowly embedded in Lean:

* pure helpers (`unnest_lists`, the per-pattern `fnmatch` loop with its
  `break`, the chunked digest loop) become Lean functions over lists;
* the filesystem state touched by `set_salt_version` becomes an explicit
  record threaded through the function;
* the `os.walk` cleanup of `pre_archive_cleanup` becomes a recursive walk
  over a finite directory tree, instrumented with an event trace so that
  temporal statements about the walk can be made;
* the digest algorithms of `generate_hashes` and the glob matcher
  `fnmatch.fnmatch` are Python-library primitives, so they appear as
  abstract function parameters; everything the repository itself does with
  them is embedded concretely.
-/

set_option maxHeartbeats 1000000

/-! ### `pre_archive_cleanup.unnest_lists` — flattening nested pattern lists

In the YAML configuration a pattern value is either a plain string or a
(possibly nested) list of pattern values. -/

inductive PatVal where
  | str (s : String) : PatVal
  | list (l : List PatVal) : PatVal

/-- Embedding of the generator
`def unnest_lists(patterns): if isinstance(patterns, list): for pattern in
patterns: yield from unnest_lists(pattern) else: yield patterns`,
collecting the yielded strings in order. -/
def unnest_lists : PatVal → List String
  | .str s => [s]
  | .list [] => []
  | .list (p :: rest) => unnest_lists p ++ unnest_lists (.list rest)

/-- `s` is one of the string leaves of the nested pattern value `p`. -/
inductive IsLeaf (s : String) : PatVal → Prop where
  | str : IsLeaf s (.str s)
  | list {p : PatVal} {l : List PatVal} : p ∈ l → IsLeaf s p → IsLeaf s (.list l)

theorem mem_unnest_list_of_mem {s : String} {q : PatVal} :
    ∀ l : List PatVal, q ∈ l → s ∈ unnest_lists q →
      s ∈ unnest_lists (.list l) := by
  intro l
  induction l with
  | nil => intro h; cases h
  | cons a rest ih =>
    intro hmem hs
    rcases List.mem_cons.mp hmem with h | h
    · subst h
      simp only [unnest_lists, List.mem_append]
      exact Or.inl hs
    · simp only [unnest_lists, List.mem_append]
      exact Or.inr (ih h hs)

theorem mem_unnest_of_isLeaf {s : String} {p : PatVal} (h : IsLeaf s p) :
    s ∈ unnest_lists p := by
  induction h with
  | str => simp [unnest_lists]
  | @list q l hq _ ih => exact mem_unnest_list_of_mem l hq ih

theorem isLeaf_of_mem_unnest : ∀ p : PatVal, ∀ s : String,
    s ∈ unnest_lists p → IsLeaf s p := by
  intro p
  induction p using unnest_lists.induct with
  | case1 t =>
    intro s hs
    simp [unnest_lists] at hs
    subst hs
    exact IsLeaf.str
  | case2 =>
    intro s hs
    simp [unnest_lists] at hs
  | case3 q rest ih1 ih2 =>
    intro s hs
    simp only [unnest_lists, List.mem_append] at hs
    rcases hs with h | h
    · exact IsLeaf.list (List.mem_cons_self q rest) (ih1 s h)
    · rcases ih2 s h with _ | ⟨hmem, hleaf⟩
      exact IsLeaf.list (List.mem_cons_of_mem q hmem) hleaf

/-- C5: flattening a nested pattern value into the pattern set (the code
inserts every yielded string into a Python `set`) produces exactly the set
of string leaves, independent of nesting shape and with duplicates
collapsed; in particular `[["a"], ["b", ["c"]]]` flattens to
`{"a", "b", "c"}`. -/
theorem unnest_lists_set_eq_leaves :
    (∀ (s : String) (p : PatVal),
        s ∈ (unnest_lists p).toFinset ↔ IsLeaf s p) ∧
      (unnest_lists
          (.list [.list [.str "a"], .list [.str "b", .list [.str "c"]]])).toFinset
        = ({"a", "b", "c"} : Finset String) := by
  constructor
  · intro s p
    rw [List.mem_toFinset]
    exact ⟨isLeaf_of_mem_unnest p s, mem_unnest_of_isLeaf⟩
  · simp [unnest_lists]

/-! ### `generate_hashes` — the streaming digest loop and the output files

The digest algorithms (`blake2b`, `sha512`, `sha3_512`) are library
primitives; they enter the embedding as an abstract digest-state type with
an abstract `update` function.  The repository's own code — the chunked
fallback read loop for Python < 3.11 and the file bookkeeping — is embedded
concretely. -/

/-- Embedding of the fallback read loop of `generate_hashes`:
`while True: size = rfh.readinto(buf); if size == 0: break;
digest.update(view[:size])` with a buffer of `2 ^ 18` bytes.  A read from
position `i` of a file holding `data` returns `min (2 ^ 18) (data.length - i)`
bytes; the loop below models the stream as the not-yet-read suffix, so a
read returns `data.take (2 ^ 18)` and leaves `data.drop (2 ^ 18)`, and the
zero-length read that stops the loop is the empty suffix. -/
def chunkedUpdate {S : Type} (update : S → List Nat → S) (s : S) (data : List Nat) : S :=
  match data with
  | [] => s
  | h :: t =>
    chunkedUpdate update (update s ((h :: t).take (2 ^ 18))) ((h :: t).drop (2 ^ 18))
  termination_by data.length
  decreasing_by simp; omega

/-- C4: feeding a byte sequence to an abstract digest in chunks of `2 ^ 18`
bytes, stopping at the first empty read, yields the same digest state — and
hence the same hex digest under any finalization function — as one
`update` over the whole contents (the `hashlib.file_digest` path). -/
theorem chunkedUpdate_eq_single_update {S : Type} (update : S → List Nat → S)
    (hnil : ∀ s : S, update s [] = s)
    (happend : ∀ (s : S) (a b : List Nat), update s (a ++ b) = update (update s a) b)
    (s : S) (data : List Nat) :
    chunkedUpdate update s data = update s data ∧
      ∀ hexdigest : S → String,
        hexdigest (chunkedUpdate update s data) = hexdigest (update s data) := by
  have main : ∀ (n : Nat) (data : List Nat), data.length ≤ n →
      ∀ s : S, chunkedUpdate update s data = update s data := by
    intro n
    induction n with
    | zero =>
      intro data hlen s
      have : data = [] := List.eq_nil_of_length_eq_zero (Nat.le_zero.mp hlen)
      subst this
      simp only [chunkedUpdate]
      exact (hnil s).symm
    | succ n ih =>
      intro data hlen s
      match data with
      | [] =>
        simp only [chunkedUpdate]
        exact (hnil s).symm
      | h :: t =>
        simp only [chunkedUpdate]
        rw [ih ((h :: t).drop (2 ^ 18)) (by simp at hlen ⊢; omega)]
        rw [← happend, List.take_append_drop]
  exact ⟨main data.length data le_rfl s, fun hex => by
    rw [main data.length data le_rfl s]⟩

/-- Closed witness for C4: the abstract digest instantiated with list
concatenation, on the byte string `[1, 2, 3]`. -/
theorem chunkedUpdate_eq_single_update_witness :
    (∀ s : List Nat, s ++ ([] : List Nat) = s) ∧
      chunkedUpdate (fun x y => x ++ y) ([] : List Nat) [1, 2, 3] = [1, 2, 3] := by
  refine ⟨fun s => by simp, ?_⟩
  have h := (chunkedUpdate_eq_single_update (fun x y : List Nat => x ++ y)
    (fun s => by simp) (fun s a b => by simp) [] [1, 2, 3]).1
  simpa using h

/-- Contents of an output file written by `generate_hashes`: the plain hex
string of a digest file, or the JSON object written to
`<name>.json` — a flat mapping from algorithm name to hex digest, which is
what `json.dumps(hashes)` serializes and what parsing that JSON recovers. -/
inductive FileContent where
  | text (s : String)
  | json (entries : List (String × String))
deriving DecidableEq

/-- Hex digit used by `hexdigest()`: `0`-`9` then lowercase `a`-`f`. -/
def hexChar (n : Nat) : Char :=
  if n < 10 then Char.ofNat (48 + n) else Char.ofNat (87 + n)

/-- The two lowercase hex characters of one byte, high nibble first. -/
def byteToHexChars (b : Nat) : List Char :=
  [hexChar (b / 16 % 16), hexChar (b % 16)]

/-- The character string produced by `digest.hexdigest()` for a digest
value of `bs` bytes. -/
def toHexChars (bs : List Nat) : List Char :=
  (bs.map byteToHexChars).flatten

/-- The sixteen characters `hexdigest()` can emit. -/
def lowerHexDigits : List Char :=
  "0123456789abcdef".toList

/-- The three algorithm names of `generate_hashes`, in loop order. -/
def hash_names : List String := ["blake2b", "sha512", "sha3_512"]

/-- Embedding of the body of `generate_hashes` for one input file:
for each algorithm the digest file `<name>.<hash_name>` is written with the
hex digest as its full contents, the digest is recorded in the `hashes`
dict, and finally `<name>.json` is written with that dict.  `hexdigest`
abstracts the composition of digest computation and hex rendering.
Returns the list of (file name, contents) pairs written, in write order. -/
def generate_hashes_file (hexdigest : String → List Nat → String)
    (fname : String) (contents : List Nat) : List (String × FileContent) :=
  let step := fun (acc : List (String × FileContent) × List (String × String))
      (hash_name : String) =>
    let hx := hexdigest hash_name contents
    (acc.1 ++ [(fname ++ "." ++ hash_name, FileContent.text hx)],
     acc.2 ++ [(hash_name, hx)])
  let r := hash_names.foldl step ([], [])
  r.1 ++ [(fname ++ ".json", FileContent.json r.2)]

theorem toHexChars_lower (bs : List Nat) : ∀ c ∈ toHexChars bs, c ∈ lowerHexDigits := by
  intro c hc
  simp only [toHexChars, List.mem_flatten, List.mem_map] at hc
  obtain ⟨l, ⟨b, _, rfl⟩, hcl⟩ := hc
  have hrange : ∀ m : Nat, m < 16 → hexChar m ∈ lowerHexDigits := by decide
  simp only [byteToHexChars, List.mem_cons, List.mem_singleton] at hcl
  rcases hcl with rfl | rfl | h
  · exact hrange _ (Nat.mod_lt _ (by norm_num))
  · exact hrange _ (Nat.mod_lt _ (by norm_num))
  · cases h

/-- C3: for an input file `fname` with byte contents `contents`,
`generate_hashes` writes exactly the three digest files
`fname.blake2b`, `fname.sha512`, `fname.sha3_512` — each holding precisely
the hex digest of the file's bytes under the corresponding algorithm, with
no trailing newline — plus `fname.json`, whose JSON mapping has exactly
those three keys, bound to the same strings that the digest files hold;
and every character of a digest string is a lowercase hex digit. -/
theorem generate_hashes_file_spec (digest : String → List Nat → List Nat)
    (fname : String) (contents : List Nat) :
    generate_hashes_file (fun nm bs => String.mk (toHexChars (digest nm bs)))
        fname contents =
      [(fname ++ "." ++ "blake2b",
          FileContent.text (String.mk (toHexChars (digest "blake2b" contents)))),
       (fname ++ "." ++ "sha512",
          FileContent.text (String.mk (toHexChars (digest "sha512" contents)))),
       (fname ++ "." ++ "sha3_512",
          FileContent.text (String.mk (toHexChars (digest "sha3_512" contents)))),
       (fname ++ ".json",
          FileContent.json
            [("blake2b", String.mk (toHexChars (digest "blake2b" contents))),
             ("sha512", String.mk (toHexChars (digest "sha512" contents))),
             ("sha3_512", String.mk (toHexChars (digest "sha3_512" contents)))])] ∧
      ∀ bs : List Nat, ∀ c ∈ toHexChars (digest "blake2b" bs) ++
          toHexChars (digest "sha512" bs) ++ toHexChars (digest "sha3_512" bs),
        c ∈ lowerHexDigits := by
  constructor
  · rfl
  · intro bs c hc
    rcases List.mem_append.mp hc with hc | hc
    · rcases List.mem_append.mp hc with hc | hc
      · exact toHexChars_lower _ c hc
      · exact toHexChars_lower _ c hc
    · exact toHexChars_lower _ c hc

/-! ### `set_salt_version` — writing `salt/_version.txt`

The filesystem and environment state the command touches, threaded
explicitly.  `version_file` is the contents of `salt/_version.txt` when it
exists; `gh_env_file` / `gh_output_file` are the contents of the files named
by `GITHUB_ENV` / `GITHUB_OUTPUT` when those variables are set (`none` when
unset); `write_ok` says whether `write_text` succeeds; `discovered` is the
stripped stdout of `python3 salt/version.py`. -/
structure VersionCtx where
  version_file : Option String
  git_exists : Bool
  salt_is_dir : Bool
  write_ok : Bool
  discovered : String
  gh_env_file : Option String
  gh_output_file : Option String
deriving DecidableEq

/-- Embedding of the tail of `set_salt_version` after the version string is
known: the `salt/` directory check, the `write_text` call with its broad
`except`, and the two CI-file writes, which the code performs with
`open(file, "w")`. -/
def write_version_and_outputs (st : VersionCtx) (ver : String) : Nat × VersionCtx :=
  if !st.salt_is_dir then (1, st)
  else if !st.write_ok then (1, st)
  else
    let st1 := { st with version_file := some ver }
    let st2 := match st1.gh_env_file with
      | none => st1
      | some _ => { st1 with gh_env_file := some ("SALT_VERSION=" ++ ver ++ "\n") }
    let st3 := match st2.gh_output_file with
      | none => st2
      | some _ => { st2 with gh_output_file := some ("salt-version=" ++ ver ++ "\n") }
    (0, st3)

/-- Embedding of `set_salt_version(ctx, salt_version, overwrite)`.
Returns the exit code together with the final state.  `ctx.exit(1)` stops
the command, so each failure branch returns immediately with the state as
it is at that point. -/
def set_salt_version (st0 : VersionCtx) (salt_version : Option String)
    (overwrite : Bool) : Nat × VersionCtx :=
  if st0.version_file.isSome && !overwrite then (1, st0)
  else
    let st1 := if st0.version_file.isSome then { st0 with version_file := none } else st0
    match salt_version with
    | none =>
      if !st1.git_exists then (1, st1)
      else write_version_and_outputs st1 st1.discovered
    | some v => write_version_and_outputs st1 v

/-- A concrete starting state whose `GITHUB_ENV` file already holds a line. -/
def c1State : VersionCtx :=
  { version_file := none
    git_exists := true
    salt_is_dir := true
    write_ok := true
    discovered := ""
    gh_env_file := some "PRIOR=1\n"
    gh_output_file := none }

/-- C1 is false as stated: the code opens the `GITHUB_ENV` file with mode
`"w"`, which truncates, so a line already present in the file is *not*
left intact — the run below ends with the file holding only the
`SALT_VERSION=` line. -/
theorem set_salt_version_gh_env_not_appended :
    ¬ ((set_salt_version c1State (some "3006.0") false).2.gh_env_file
        = some ("PRIOR=1\n" ++ "SALT_VERSION=" ++ "3006.0" ++ "\n")) := by
  decide

/-- C1 (amended): on every run that reaches the CI-file step (exit code 0),
if `GITHUB_ENV` (resp. `GITHUB_OUTPUT`) names a file, that file afterwards
holds exactly the single line `SALT_VERSION=<version>` (resp.
`salt-version=<version>`) with a trailing newline: the line is written
with open mode `"w"`, so previous contents are replaced, not appended
to. -/
theorem set_salt_version_gh_files (st : VersionCtx) (sv : Option String)
    (ow : Bool) (hexit : (set_salt_version st sv ow).1 = 0) :
    (st.gh_env_file.isSome →
        (set_salt_version st sv ow).2.gh_env_file
          = some ("SALT_VERSION=" ++ sv.getD st.discovered ++ "\n")) ∧
      (st.gh_output_file.isSome →
        (set_salt_version st sv ow).2.gh_output_file
          = some ("salt-version=" ++ sv.getD st.discovered ++ "\n")) := by
  rcases st with ⟨vf, ge, sd, wo, disc, ghe, gho⟩
  rcases sv with _ | v <;>
    rcases vf with _ | c <;>
      rcases ge with _ | _ <;>
        rcases sd with _ | _ <;>
          rcases wo with _ | _ <;>
            rcases ow with _ | _ <;>
              rcases ghe with _ | e <;>
                rcases gho with _ | o <;>
                  simp_all [set_salt_version, write_version_and_outputs]

/-- Closed witness for the amended C1 at a concrete run. -/
theorem set_salt_version_gh_files_witness :
    (set_salt_version c1State (some "3006.0") false).1 = 0 ∧
      (set_salt_version c1State (some "3006.0") false).2.gh_env_file
        = some ("SALT_VERSION=" ++ (some "3006.0").getD c1State.discovered ++ "\n") := by
  refine ⟨by decide, ?_⟩
  exact (set_salt_version_gh_files c1State (some "3006.0") false (by decide)).1
    (by decide)

/-- C2: when `salt/_version.txt` already exists and `--overwrite` was not
given, the command exits with code 1 and the state is completely
untouched — the file keeps its contents, nothing is unlinked and nothing
is written anywhere. -/
theorem set_salt_version_exists_no_overwrite (st : VersionCtx)
    (sv : Option String) (c : String) (h : st.version_file = some c) :
    set_salt_version st sv false = (1, st) := by
  simp [set_salt_version, h]

/-- Closed witness for C2. -/
theorem set_salt_version_exists_no_overwrite_witness :
    ({ c1State with version_file := some "3005" } : VersionCtx).version_file
        = some "3005" ∧
      set_salt_version { c1State with version_file := some "3005" } none false
        = (1, { c1State with version_file := some "3005" }) :=
  ⟨rfl, set_salt_version_exists_no_overwrite _ none "3005" rfl⟩

/-- C10: with `--overwrite` and an existing version file, the file is
unlinked before the new write is attempted; if that write then fails the
command exits 1 with the original file (and its contents) already gone —
this path, unlike the no-overwrite error path, does not preserve the
pre-existing file. -/
theorem set_salt_version_overwrite_write_failure (st : VersionCtx)
    (v c : String) (hvf : st.version_file = some c)
    (hsd : st.salt_is_dir = true) (hwo : st.write_ok = false) :
    (set_salt_version st (some v) true).1 = 1 ∧
      (set_salt_version st (some v) true).2.version_file = none := by
  simp [set_salt_version, write_version_and_outputs, hvf, hsd, hwo]

/-- Closed witness for C10. -/
theorem set_salt_version_overwrite_write_failure_witness :
    ({ c1State with version_file := some "3005", write_ok := false } : VersionCtx).version_file
        = some "3005" ∧
      (set_salt_version { c1State with version_file := some "3005", write_ok := false }
          (some "3006.0") true).2.version_file = none :=
  ⟨rfl, (set_salt_version_overwrite_write_failure _ "3006.0" "3005" rfl rfl rfl).2⟩

/-! ### `pre_archive_cleanup` — the deleting directory walk

`os.walk(cleanup_path, topdown=True, followlinks=False)` over a symlink-free
tree is modelled as a recursive walk over a finite directory tree.  At each
node the code first tests every subdirectory name against the directory
patterns (deleting matching subtrees with `shutil.rmtree`), then every file
name against the file patterns (deleting matching files with `os.remove`),
and then descends, in listing order, into those subdirectories that still
exist.  `fnmatch.fnmatch` is a library primitive and enters as an abstract
boolean matcher; `path.resolve()` is the identity on the rendered absolute
path since the tree has no symlinks. -/

/-- The data `pre_archive_cleanup` matches against: the abstract
`fnmatch.fnmatch`, the two flattened pattern sets (as lists, in iteration
order), and the resolved POSIX rendering of the cleanup root. -/
structure CleanupCfg where
  fnmatch : String → String → Bool
  dir_patterns : List String
  file_patterns : List String
  root : String

/-- `path.as_posix()` of the entry reached from the cleanup root through
the components `p`: the root string with `/component` appended for each
component. -/
def posixRender (root : String) (p : List String) : String :=
  p.foldl (fun acc n => acc ++ "/" ++ n) root

/-- Embedding of the inner `for pattern in patterns: if fnmatch(...):
<delete>; break` loop: returns the list of patterns actually tested, in
order, and the first matching pattern if any (at which the loop breaks). -/
def matchLoop (fnmatch : String → String → Bool) (path : String) :
    List String → List String × Option String
  | [] => ([], none)
  | pat :: pats =>
    if fnmatch path pat then ([pat], some pat)
    else
      let r := matchLoop fnmatch path pats
      (pat :: r.1, r.2)

theorem matchLoop_eq (fnmatch : String → String → Bool) (path : String) :
    ∀ pats : List String,
      matchLoop fnmatch path pats
        = (pats.takeWhile (fun pat => !fnmatch path pat)
             ++ (pats.find? (fnmatch path)).toList,
           pats.find? (fnmatch path)) := by
  intro pats
  induction pats with
  | nil => rfl
  | cons pat pats ih =>
    by_cases h : fnmatch path pat
    · simp [matchLoop, List.takeWhile_cons, List.find?_cons, h]
    · simp [matchLoop, List.takeWhile_cons, List.find?_cons, h, ih]

theorem matchLoop_isSome_iff (fnmatch : String → String → Bool) (path : String)
    (pats : List String) :
    (matchLoop fnmatch path pats).2.isSome = true
      ↔ ∃ pat ∈ pats, fnmatch path pat = true := by
  rw [matchLoop_eq]
  simp [List.find?_isSome]

/-- One step of the instrumented walk, with the path of the entry concerned
(as components below the cleanup root). -/
inductive Event where
  | skipDir (p : List String)
  | testDir (p : List String) (pat : String)
  | delDir (p : List String)
  | skipFile (p : List String)
  | testFile (p : List String) (pat : String)
  | delFile (p : List String)
deriving DecidableEq

/-- The entry an event concerns. -/
def Event.entry : Event → List String
  | .skipDir p => p
  | .testDir p _ => p
  | .delDir p => p
  | .skipFile p => p
  | .testFile p _ => p
  | .delFile p => p

/-- A symlink-free directory tree: named subdirectories and file names. -/
inductive FSTree where
  | node (dirs : List (String × FSTree)) (files : List String)

/-- The subdirectory listing of a node. -/
def FSTree.dirs : FSTree → List (String × FSTree)
  | .node d _ => d

/-- The file listing of a node. -/
def FSTree.files : FSTree → List String
  | .node _ f => f

/-- `path.exists()` for a subdirectory name: look it up in the current
listing. -/
def findDir (n : String) (l : List (String × FSTree)) : Option FSTree :=
  (l.find? (fun e => e.1 == n)).map (fun e => e.2)

/-- `shutil.rmtree` of subdirectory `n`: drop its entry from the listing. -/
def eraseDir (n : String) (l : List (String × FSTree)) : List (String × FSTree) :=
  l.filter (fun e => e.1 != n)

/-- `os.remove` of file `n`: drop it from the file listing. -/
def eraseFile (n : String) (l : List String) : List String :=
  l.filter (fun f => f != n)

/-- Embedding of `for dirname in dirs: ...` at one node of the walk:
`snapshot` is the `dirs` list yielded by `os.walk` (the names present when
the node was listed), `cur` the current listing.  Each name is resolved and
checked for existence, then run through the pattern loop; on a match the
subtree is removed and the loop breaks to the next name. -/
def dirLoop (cfg : CleanupCfg) (base : List String) :
    List String → List (String × FSTree) → List (String × FSTree) × List Event
  | [], cur => (cur, [])
  | n :: rest, cur =>
    if (findDir n cur).isSome then
      match matchLoop cfg.fnmatch (posixRender cfg.root (base ++ [n])) cfg.dir_patterns with
      | (tested, some _) =>
        let r := dirLoop cfg base rest (eraseDir n cur)
        (r.1, tested.map (Event.testDir (base ++ [n]))
                ++ Event.delDir (base ++ [n]) :: r.2)
      | (tested, none) =>
        let r := dirLoop cfg base rest cur
        (r.1, tested.map (Event.testDir (base ++ [n])) ++ r.2)
    else
      let r := dirLoop cfg base rest cur
      (r.1, Event.skipDir (base ++ [n]) :: r.2)

/-- Embedding of `for filename in files: ...` at one node of the walk,
analogous to `dirLoop`; in the race-free model the `os.remove` succeeds
(the `except FileNotFoundError: pass` is exercised in `fileLoopRace`
below). -/
def fileLoop (cfg : CleanupCfg) (base : List String) :
    List String → List String → List String × List Event
  | [], cur => (cur, [])
  | n :: rest, cur =>
    if cur.contains n then
      match matchLoop cfg.fnmatch (posixRender cfg.root (base ++ [n])) cfg.file_patterns with
      | (tested, some _) =>
        let r := fileLoop cfg base rest (eraseFile n cur)
        (r.1, tested.map (Event.testFile (base ++ [n]))
                ++ Event.delFile (base ++ [n]) :: r.2)
      | (tested, none) =>
        let r := fileLoop cfg base rest cur
        (r.1, tested.map (Event.testFile (base ++ [n])) ++ r.2)
    else
      let r := fileLoop cfg base rest cur
      (r.1, Event.skipFile (base ++ [n]) :: r.2)

mutual
/-- The instrumented cleanup walk from one node: process the directory
listing, then the file listing, then descend — in the order of the original
listing — into each subdirectory that still exists, exactly as
`os.walk(topdown=True)` does when the body of the loop deletes matched
entries.  Returns the tree left behind and the trace of events. -/
def walk (cfg : CleanupCfg) (base : List String) : FSTree → FSTree × List Event
  | .node dirs files =>
    let d := dirLoop cfg base (dirs.map Prod.fst) dirs
    let f := fileLoop cfg base files files
    let c := walkEntries cfg base d.1 dirs
    (.node c.1 f.1, d.2 ++ f.2 ++ c.2)

/-- Descend into the subdirectories named in the original listing, skipping
(with no events — a deleted directory yields nothing under `os.walk`) the
entries that did not survive the directory loop. -/
def walkEntries (cfg : CleanupCfg) (base : List String)
    (survivors : List (String × FSTree)) :
    List (String × FSTree) → List (String × FSTree) × List Event
  | [] => ([], [])
  | (n, t) :: rest =>
    if (findDir n survivors).isSome then
      let w := walk cfg (base ++ [n]) t
      let r := walkEntries cfg base survivors rest
      ((n, w.1) :: r.1, w.2 ++ r.2)
    else
      walkEntries cfg base survivors rest
end

/-- Well-formed directory tree: sibling directory names are distinct,
sibling file names are distinct, recursively. -/
inductive WFT : FSTree → Prop where
  | node {dirs : List (String × FSTree)} {files : List String} :
      (dirs.map Prod.fst).Nodup → files.Nodup →
      (∀ e ∈ dirs, WFT e.2) → WFT (.node dirs files)

/-! #### Unfolding equations and elementary facts about the loops -/

theorem dirLoop_nil (cfg : CleanupCfg) (base : List String)
    (cur : List (String × FSTree)) : dirLoop cfg base [] cur = (cur, []) := rfl

theorem dirLoop_cons_skip (cfg : CleanupCfg) (base : List String)
    (n : String) (rest : List String) (cur : List (String × FSTree))
    (h : (findDir n cur).isSome = false) :
    dirLoop cfg base (n :: rest) cur
      = ((dirLoop cfg base rest cur).1,
         Event.skipDir (base ++ [n]) :: (dirLoop cfg base rest cur).2) := by
  simp [dirLoop, h]

theorem dirLoop_cons_del (cfg : CleanupCfg) (base : List String)
    (n : String) (rest : List String) (cur : List (String × FSTree))
    (tested : List String) (pat : String)
    (h : (findDir n cur).isSome = true)
    (hm : matchLoop cfg.fnmatch (posixRender cfg.root (base ++ [n])) cfg.dir_patterns
            = (tested, some pat)) :
    dirLoop cfg base (n :: rest) cur
      = ((dirLoop cfg base rest (eraseDir n cur)).1,
         tested.map (Event.testDir (base ++ [n]))
           ++ Event.delDir (base ++ [n]) :: (dirLoop cfg base rest (eraseDir n cur)).2) := by
  simp [dirLoop, h, hm]

theorem dirLoop_cons_keep (cfg : CleanupCfg) (base : List String)
    (n : String) (rest : List String) (cur : List (String × FSTree))
    (tested : List String)
    (h : (findDir n cur).isSome = true)
    (hm : matchLoop cfg.fnmatch (posixRender cfg.root (base ++ [n])) cfg.dir_patterns
            = (tested, none)) :
    dirLoop cfg base (n :: rest) cur
      = ((dirLoop cfg base rest cur).1,
         tested.map (Event.testDir (base ++ [n])) ++ (dirLoop cfg base rest cur).2) := by
  simp [dirLoop, h, hm]

theorem fileLoop_nil (cfg : CleanupCfg) (base : List String)
    (cur : List String) : fileLoop cfg base [] cur = (cur, []) := rfl

theorem fileLoop_cons_skip (cfg : CleanupCfg) (base : List String)
    (n : String) (rest : List String) (cur : List String)
    (h : n ∉ cur) :
    fileLoop cfg base (n :: rest) cur
      = ((fileLoop cfg base rest cur).1,
         Event.skipFile (base ++ [n]) :: (fileLoop cfg base rest cur).2) := by
  simp [fileLoop, h]

theorem fileLoop_cons_del (cfg : CleanupCfg) (base : List String)
    (n : String) (rest : List String) (cur : List String)
    (tested : List String) (pat : String)
    (h : n ∈ cur)
    (hm : matchLoop cfg.fnmatch (posixRender cfg.root (base ++ [n])) cfg.file_patterns
            = (tested, some pat)) :
    fileLoop cfg base (n :: rest) cur
      = ((fileLoop cfg base rest (eraseFile n cur)).1,
         tested.map (Event.testFile (base ++ [n]))
           ++ Event.delFile (base ++ [n]) :: (fileLoop cfg base rest (eraseFile n cur)).2) := by
  simp [fileLoop, h, hm]

theorem fileLoop_cons_keep (cfg : CleanupCfg) (base : List String)
    (n : String) (rest : List String) (cur : List String)
    (tested : List String)
    (h : n ∈ cur)
    (hm : matchLoop cfg.fnmatch (posixRender cfg.root (base ++ [n])) cfg.file_patterns
            = (tested, none)) :
    fileLoop cfg base (n :: rest) cur
      = ((fileLoop cfg base rest cur).1,
         tested.map (Event.testFile (base ++ [n])) ++ (fileLoop cfg base rest cur).2) := by
  simp [fileLoop, h, hm]

theorem walk_node (cfg : CleanupCfg) (base : List String)
    (dirs : List (String × FSTree)) (files : List String) :
    walk cfg base (.node dirs files)
      = (.node (walkEntries cfg base (dirLoop cfg base (dirs.map Prod.fst) dirs).1 dirs).1
           (fileLoop cfg base files files).1,
         (dirLoop cfg base (dirs.map Prod.fst) dirs).2
           ++ (fileLoop cfg base files files).2
           ++ (walkEntries cfg base (dirLoop cfg base (dirs.map Prod.fst) dirs).1 dirs).2) := by
  rfl

theorem walkEntries_nil (cfg : CleanupCfg) (base : List String)
    (surv : List (String × FSTree)) : walkEntries cfg base surv [] = ([], []) := rfl

theorem walkEntries_cons_desc (cfg : CleanupCfg) (base : List String)
    (surv : List (String × FSTree)) (n : String) (t : FSTree)
    (rest : List (String × FSTree)) (h : (findDir n surv).isSome = true) :
    walkEntries cfg base surv ((n, t) :: rest)
      = ((n, (walk cfg (base ++ [n]) t).1) :: (walkEntries cfg base surv rest).1,
         (walk cfg (base ++ [n]) t).2 ++ (walkEntries cfg base surv rest).2) := by
  simp [walkEntries, h]

theorem walkEntries_cons_skip (cfg : CleanupCfg) (base : List String)
    (surv : List (String × FSTree)) (n : String) (t : FSTree)
    (rest : List (String × FSTree)) (h : (findDir n surv).isSome = false) :
    walkEntries cfg base surv ((n, t) :: rest) = walkEntries cfg base surv rest := by
  simp [walkEntries, h]

theorem findDir_isSome_iff (n : String) (l : List (String × FSTree)) :
    (findDir n l).isSome = true ↔ ∃ t, (n, t) ∈ l := by
  constructor
  · intro h
    rcases hf : List.find? (fun e => e.1 == n) l with _ | ⟨⟨m, t⟩⟩
    · rw [findDir, hf] at h
      simp at h
    · have hbeq := List.find?_some hf
      have hmem := List.mem_of_find?_eq_some hf
      simp only [beq_iff_eq] at hbeq
      subst hbeq
      exact ⟨t, hmem⟩
  · rintro ⟨t, hmem⟩
    have hs : (List.find? (fun e => e.1 == n) l).isSome = true :=
      List.find?_isSome.mpr ⟨(n, t), hmem, by simp⟩
    rcases ho : List.find? (fun e => e.1 == n) l with _ | x
    · rw [ho] at hs
      simp at hs
    · rw [findDir, ho]
      simp

theorem mem_eraseDir {e : String × FSTree} {n : String}
    {l : List (String × FSTree)} :
    e ∈ eraseDir n l ↔ e ∈ l ∧ e.1 ≠ n := by
  simp [eraseDir, List.mem_filter, bne_iff_ne]

theorem mem_eraseFile {f n : String} {l : List String} :
    f ∈ eraseFile n l ↔ f ∈ l ∧ f ≠ n := by
  simp [eraseFile, List.mem_filter, bne_iff_ne]

theorem findDir_isSome_of_mem {n : String} {t : FSTree}
    {l : List (String × FSTree)} (h : (n, t) ∈ l) :
    (findDir n l).isSome = true :=
  (findDir_isSome_iff n l).mpr ⟨t, h⟩

theorem dirLoop_events_entry (cfg : CleanupCfg) (base : List String) :
    ∀ (snapshot : List String) (cur : List (String × FSTree)),
      ∀ e ∈ (dirLoop cfg base snapshot cur).2,
        ∃ n ∈ snapshot, e.entry = base ++ [n] := by
  intro snapshot
  induction snapshot with
  | nil =>
    intro cur e he
    rw [dirLoop_nil] at he
    cases he
  | cons n rest ih =>
    intro cur e he
    by_cases hf : (findDir n cur).isSome = true
    · rcases hm : matchLoop cfg.fnmatch (posixRender cfg.root (base ++ [n]))
        cfg.dir_patterns with ⟨tested, r⟩
      rcases r with _ | pat
      · rw [dirLoop_cons_keep cfg base n rest cur tested hf hm] at he
        rcases List.mem_append.mp he with he | he
        · rcases List.mem_map.mp he with ⟨pat', _, rfl⟩
          exact ⟨n, List.mem_cons_self n rest, rfl⟩
        · obtain ⟨m, hmr, hme⟩ := ih cur e he
          exact ⟨m, List.mem_cons_of_mem n hmr, hme⟩
      · rw [dirLoop_cons_del cfg base n rest cur tested pat hf hm] at he
        rcases List.mem_append.mp he with he | he
        · rcases List.mem_map.mp he with ⟨pat', _, rfl⟩
          exact ⟨n, List.mem_cons_self n rest, rfl⟩
        · rcases List.mem_cons.mp he with rfl | he
          · exact ⟨n, List.mem_cons_self n rest, rfl⟩
          · obtain ⟨m, hmr, hme⟩ := ih (eraseDir n cur) e he
            exact ⟨m, List.mem_cons_of_mem n hmr, hme⟩
    · rw [dirLoop_cons_skip cfg base n rest cur (by simpa using hf)] at he
      rcases List.mem_cons.mp he with rfl | he
      · exact ⟨n, List.mem_cons_self n rest, rfl⟩
      · obtain ⟨m, hmr, hme⟩ := ih cur e he
        exact ⟨m, List.mem_cons_of_mem n hmr, hme⟩

theorem dirLoop_sublist (cfg : CleanupCfg) (base : List String) :
    ∀ (snapshot : List String) (cur : List (String × FSTree)),
      List.Sublist (dirLoop cfg base snapshot cur).1 cur := by
  intro snapshot
  induction snapshot with
  | nil =>
    intro cur
    rw [dirLoop_nil]
  | cons n rest ih =>
    intro cur
    by_cases hf : (findDir n cur).isSome = true
    · rcases hm : matchLoop cfg.fnmatch (posixRender cfg.root (base ++ [n]))
        cfg.dir_patterns with ⟨tested, r⟩
      rcases r with _ | pat
      · rw [dirLoop_cons_keep cfg base n rest cur tested hf hm]
        exact ih cur
      · rw [dirLoop_cons_del cfg base n rest cur tested pat hf hm]
        exact (ih (eraseDir n cur)).trans (List.filter_sublist cur)
    · rw [dirLoop_cons_skip cfg base n rest cur (by simpa using hf)]
      exact ih cur

theorem dirLoop_delDir_erased (cfg : CleanupCfg) (base : List String) :
    ∀ (snapshot : List String) (cur : List (String × FSTree)) (n : String),
      Event.delDir (base ++ [n]) ∈ (dirLoop cfg base snapshot cur).2 →
        ∀ t', (n, t') ∉ (dirLoop cfg base snapshot cur).1 := by
  intro snapshot
  induction snapshot with
  | nil =>
    intro cur n he
    rw [dirLoop_nil] at he
    cases he
  | cons m rest ih =>
    intro cur n he t' hmem
    by_cases hf : (findDir m cur).isSome = true
    · rcases hm : matchLoop cfg.fnmatch (posixRender cfg.root (base ++ [m]))
        cfg.dir_patterns with ⟨tested, r⟩
      rcases r with _ | pat
      · rw [dirLoop_cons_keep cfg base m rest cur tested hf hm] at he hmem
        rcases List.mem_append.mp he with he | he
        · rcases List.mem_map.mp he with ⟨pat', _, h⟩
          cases h
        · exact ih cur n he t' hmem
      · rw [dirLoop_cons_del cfg base m rest cur tested pat hf hm] at he hmem
        rcases List.mem_append.mp he with he | he
        · rcases List.mem_map.mp he with ⟨pat', _, h⟩
          cases h
        · rcases List.mem_cons.mp he with hh | he
          · have hmn : n = m := by
              injection hh with h1
              simpa using h1
            subst hmn
            have hsub := dirLoop_sublist cfg base rest (eraseDir n cur)
            have hin := hsub.subset hmem
            rcases mem_eraseDir.mp hin with ⟨_, hne⟩
            exact hne rfl
          · exact ih (eraseDir m cur) n he t' hmem
    · rw [dirLoop_cons_skip cfg base m rest cur (by simpa using hf)] at he hmem
      rcases List.mem_cons.mp he with hh | he
      · cases hh
      · exact ih cur n he t' hmem

theorem fileLoop_events_entry (cfg : CleanupCfg) (base : List String) :
    ∀ (snapshot : List String) (cur : List String),
      ∀ e ∈ (fileLoop cfg base snapshot cur).2,
        (∃ n ∈ snapshot, e.entry = base ++ [n]) ∧ ∀ p, e ≠ Event.delDir p := by
  intro snapshot
  induction snapshot with
  | nil =>
    intro cur e he
    rw [fileLoop_nil] at he
    cases he
  | cons n rest ih =>
    intro cur e he
    by_cases hf : n ∈ cur
    · rcases hm : matchLoop cfg.fnmatch (posixRender cfg.root (base ++ [n]))
        cfg.file_patterns with ⟨tested, r⟩
      rcases r with _ | pat
      · rw [fileLoop_cons_keep cfg base n rest cur tested hf hm] at he
        rcases List.mem_append.mp he with he | he
        · rcases List.mem_map.mp he with ⟨pat', _, rfl⟩
          exact ⟨⟨n, List.mem_cons_self n rest, rfl⟩, fun p h => by cases h⟩
        · obtain ⟨⟨m, hmr, hme⟩, hnd⟩ := ih cur e he
          exact ⟨⟨m, List.mem_cons_of_mem n hmr, hme⟩, hnd⟩
      · rw [fileLoop_cons_del cfg base n rest cur tested pat hf hm] at he
        rcases List.mem_append.mp he with he | he
        · rcases List.mem_map.mp he with ⟨pat', _, rfl⟩
          exact ⟨⟨n, List.mem_cons_self n rest, rfl⟩, fun p h => by cases h⟩
        · rcases List.mem_cons.mp he with rfl | he
          · exact ⟨⟨n, List.mem_cons_self n rest, rfl⟩, fun p h => by cases h⟩
          · obtain ⟨⟨m, hmr, hme⟩, hnd⟩ := ih (eraseFile n cur) e he
            exact ⟨⟨m, List.mem_cons_of_mem n hmr, hme⟩, hnd⟩
    · rw [fileLoop_cons_skip cfg base n rest cur hf] at he
      rcases List.mem_cons.mp he with rfl | he
      · exact ⟨⟨n, List.mem_cons_self n rest, rfl⟩, fun p h => by cases h⟩
      · obtain ⟨⟨m, hmr, hme⟩, hnd⟩ := ih cur e he
        exact ⟨⟨m, List.mem_cons_of_mem n hmr, hme⟩, hnd⟩

theorem walkEntries_events (cfg : CleanupCfg) (base : List String)
    (surv : List (String × FSTree)) :
    ∀ l : List (String × FSTree), ∀ e ∈ (walkEntries cfg base surv l).2,
      ∃ n t', (n, t') ∈ l ∧ (findDir n surv).isSome = true ∧
        e ∈ (walk cfg (base ++ [n]) t').2 := by
  intro l
  induction l with
  | nil =>
    intro e he
    rw [walkEntries_nil] at he
    cases he
  | cons x rest ih =>
    rcases x with ⟨n, t⟩
    intro e he
    by_cases hf : (findDir n surv).isSome = true
    · rw [walkEntries_cons_desc cfg base surv n t rest hf] at he
      rcases List.mem_append.mp he with he | he
      · exact ⟨n, t, List.mem_cons_self _ _, hf, he⟩
      · obtain ⟨m, t', hmem, hfm, hme⟩ := ih e he
        exact ⟨m, t', List.mem_cons_of_mem _ hmem, hfm, hme⟩
    · rw [walkEntries_cons_skip cfg base surv n t rest (by simpa using hf)] at he
      obtain ⟨m, t', hmem, hfm, hme⟩ := ih e he
      exact ⟨m, t', List.mem_cons_of_mem _ hmem, hfm, hme⟩

theorem walkEntries_mem (cfg : CleanupCfg) (base : List String)
    (surv : List (String × FSTree)) :
    ∀ l : List (String × FSTree), ∀ x ∈ (walkEntries cfg base surv l).1,
      ∃ t', (x.1, t') ∈ l ∧ (findDir x.1 surv).isSome = true ∧
        x.2 = (walk cfg (base ++ [x.1]) t').1 := by
  intro l
  induction l with
  | nil =>
    intro x hx
    rw [walkEntries_nil] at hx
    cases hx
  | cons y rest ih =>
    rcases y with ⟨n, t⟩
    intro x hx
    by_cases hf : (findDir n surv).isSome = true
    · rw [walkEntries_cons_desc cfg base surv n t rest hf] at hx
      rcases List.mem_cons.mp hx with rfl | hx
      · exact ⟨t, List.mem_cons_self _ _, hf, rfl⟩
      · obtain ⟨t', hmem, hfm, hxe⟩ := ih x hx
        exact ⟨t', List.mem_cons_of_mem _ hmem, hfm, hxe⟩
    · rw [walkEntries_cons_skip cfg base surv n t rest (by simpa using hf)] at hx
      obtain ⟨t', hmem, hfm, hxe⟩ := ih x hx
      exact ⟨t', List.mem_cons_of_mem _ hmem, hfm, hxe⟩

theorem walkEntries_findDir (cfg : CleanupCfg) (base : List String)
    (surv : List (String × FSTree)) :
    ∀ l : List (String × FSTree), (l.map Prod.fst).Nodup →
      ∀ (n : String) (t' : FSTree), (n, t') ∈ l →
        (findDir n surv).isSome = true →
        findDir n (walkEntries cfg base surv l).1
          = some (walk cfg (base ++ [n]) t').1 := by
  intro l
  induction l with
  | nil =>
    intro _ n t' hmem
    cases hmem
  | cons y rest ih =>
    rcases y with ⟨m, t⟩
    intro hnd n t' hmem hf
    simp only [List.map_cons, List.nodup_cons] at hnd
    rcases List.mem_cons.mp hmem with heq | hmem'
    · have hm : m = n := congrArg Prod.fst heq.symm
      subst hm
      have ht : t = t' := congrArg Prod.snd heq.symm
      subst ht
      rw [walkEntries_cons_desc cfg base surv m t rest hf]
      simp [findDir]
    · have hmn : m ≠ n := by
        intro h
        subst h
        exact hnd.1 (List.mem_map.mpr ⟨(m, t'), hmem', rfl⟩)
      by_cases hfm : (findDir m surv).isSome = true
      · rw [walkEntries_cons_desc cfg base surv m t rest hfm]
        rw [findDir, List.find?_cons_of_neg, ← findDir]
        · exact ih hnd.2 n t' hmem' hf
        · simp [hmn]
      · rw [walkEntries_cons_skip cfg base surv m t rest (by simpa using hfm)]
        exact ih hnd.2 n t' hmem' hf

theorem walkEntries_names_sublist (cfg : CleanupCfg) (base : List String)
    (surv : List (String × FSTree)) :
    ∀ l : List (String × FSTree),
      List.Sublist ((walkEntries cfg base surv l).1.map Prod.fst)
        (l.map Prod.fst) := by
  intro l
  induction l with
  | nil => rw [walkEntries_nil]
  | cons y rest ih =>
    rcases y with ⟨n, t⟩
    by_cases hf : (findDir n surv).isSome = true
    · rw [walkEntries_cons_desc cfg base surv n t rest hf]
      simpa using List.Sublist.cons₂ n ih
    · rw [walkEntries_cons_skip cfg base surv n t rest (by simpa using hf)]
      exact ih.trans (List.sublist_cons_self n (rest.map Prod.fst))

theorem walk_events_entry (cfg : CleanupCfg) :
    ∀ t : FSTree, WFT t → ∀ base : List String,
      ∀ e ∈ (walk cfg base t).2, ∃ n, (base ++ [n]) <+: e.entry := by
  intro t hwf
  induction hwf with
  | @node dirs files hnd hnf hch ih =>
    intro base e he
    rw [walk_node] at he
    rcases List.mem_append.mp he with he | he
    · rcases List.mem_append.mp he with he | he
      · obtain ⟨n, _, hen⟩ := dirLoop_events_entry cfg base (dirs.map Prod.fst) dirs e he
        exact ⟨n, hen ▸ List.prefix_refl _⟩
      · obtain ⟨⟨n, _, hen⟩, _⟩ := fileLoop_events_entry cfg base files files e he
        exact ⟨n, hen ▸ List.prefix_refl _⟩
    · obtain ⟨n, t', hmem, _, hme⟩ :=
        walkEntries_events cfg base (dirLoop cfg base (dirs.map Prod.fst) dirs).1 dirs e he
      obtain ⟨m, hm⟩ := ih (n, t') hmem (base ++ [n]) e hme
      exact ⟨n, (List.prefix_append (base ++ [n]) [m]).trans hm⟩

/-- Temporal property of a trace: once a directory deletion is recorded, no
later event concerns an entry strictly beneath the deleted directory. -/
def noDelDescend : List Event → Prop
  | [] => True
  | e :: rest =>
    (∀ p, e = Event.delDir p →
        ∀ e' ∈ rest, ¬((p <+: e'.entry) ∧ p ≠ e'.entry)) ∧
      noDelDescend rest

theorem noDelDescend_append {a b : List Event} (ha : noDelDescend a)
    (hb : noDelDescend b)
    (hab : ∀ p, Event.delDir p ∈ a →
      ∀ e ∈ b, ¬((p <+: e.entry) ∧ p ≠ e.entry)) :
    noDelDescend (a ++ b) := by
  induction a with
  | nil => exact hb
  | cons e a' ih =>
    refine ⟨?_, ih ha.2 fun p hp => hab p (List.mem_cons_of_mem e hp)⟩
    intro p hp e' he'
    rcases List.mem_append.mp he' with he' | he'
    · exact ha.1 p hp e' he'
    · exact hab p (hp ▸ List.mem_cons_self _ _) e' he'

theorem noDelDescend_of_no_delDir {evs : List Event}
    (h : ∀ p, Event.delDir p ∉ evs) : noDelDescend evs := by
  induction evs with
  | nil => trivial
  | cons e rest ih =>
    refine ⟨fun p hp => absurd (hp ▸ List.mem_cons_self e rest) (h p), ?_⟩
    exact ih fun p hp => h p (List.mem_cons_of_mem e hp)

theorem not_strict_below_of_length {p q : List String} (hp : p.length = q.length) :
    ¬((p <+: q) ∧ p ≠ q) := by
  rintro ⟨hpre, hne⟩
  exact hne (List.IsPrefix.eq_of_length hpre hp)

theorem noDelDescend_of_entry_length {evs : List Event} {L : Nat}
    (h : ∀ e ∈ evs, e.entry.length = L) : noDelDescend evs := by
  induction evs with
  | nil => trivial
  | cons e rest ih =>
    refine ⟨?_, ih fun e' he' => h e' (List.mem_cons_of_mem e he')⟩
    rintro p rfl e' he'
    have h1 : p.length = L := h _ (List.mem_cons_self _ _)
    have h2 : e'.entry.length = L := h e' (List.mem_cons_of_mem _ he')
    exact not_strict_below_of_length (h1.trans h2.symm)

theorem prefixes_eq_of_length {p q w : List String} (h1 : p <+: w) (h2 : q <+: w)
    (hl : p.length = q.length) : p = q := by
  rcases h1 with ⟨u, rfl⟩
  rcases h2 with ⟨v, hv⟩
  have := List.append_inj_left hv hl.symm
  exact this.symm

theorem walkEntries_noDelDescend (cfg : CleanupCfg) (base : List String)
    (surv : List (String × FSTree)) :
    ∀ l : List (String × FSTree), (l.map Prod.fst).Nodup →
      (∀ e ∈ l, WFT e.2) →
      (∀ e ∈ l, ∀ base', noDelDescend (walk cfg base' e.2).2) →
      noDelDescend (walkEntries cfg base surv l).2 := by
  intro l
  induction l with
  | nil =>
    intro _ _ _
    rw [walkEntries_nil]
    trivial
  | cons y rest ih =>
    rcases y with ⟨n, t⟩
    intro hnd hwf hnodel
    simp only [List.map_cons, List.nodup_cons] at hnd
    by_cases hf : (findDir n surv).isSome = true
    · rw [walkEntries_cons_desc cfg base surv n t rest hf]
      refine noDelDescend_append (hnodel (n, t) (List.mem_cons_self _ _) (base ++ [n]))
        (ih hnd.2 (fun e he => hwf e (List.mem_cons_of_mem _ he))
          (fun e he => hnodel e (List.mem_cons_of_mem _ he))) ?_
      intro p hp e he
      rintro ⟨hpre, -⟩
      obtain ⟨q1, hq1⟩ := walk_events_entry cfg t (hwf (n, t) (List.mem_cons_self _ _))
        (base ++ [n]) (Event.delDir p) hp
      obtain ⟨m, t', hmem, _, hme⟩ := walkEntries_events cfg base surv rest e he
      obtain ⟨q2, hq2⟩ := walk_events_entry cfg t' (hwf (m, t') (List.mem_cons_of_mem _ hmem))
        (base ++ [m]) e hme
      have h1 : (base ++ [n]) <+: e.entry :=
        ((List.prefix_append (base ++ [n]) [q1]).trans hq1).trans hpre
      have h2 : (base ++ [m]) <+: e.entry :=
        (List.prefix_append (base ++ [m]) [q2]).trans hq2
      have : base ++ [n] = base ++ [m] := prefixes_eq_of_length h1 h2 (by simp)
      have hnm : n = m := by simpa using this
      subst hnm
      exact hnd.1 (List.mem_map.mpr ⟨(n, t'), hmem, rfl⟩)
    · rw [walkEntries_cons_skip cfg base surv n t rest (by simpa using hf)]
      exact ih hnd.2 (fun e he => hwf e (List.mem_cons_of_mem _ he))
        (fun e he => hnodel e (List.mem_cons_of_mem _ he))

theorem walk_noDelDescend (cfg : CleanupCfg) :
    ∀ t : FSTree, WFT t → ∀ base : List String,
      noDelDescend (walk cfg base t).2 := by
  intro t hwf
  induction hwf with
  | @node dirs files hnd hnf hch ih =>
    intro base
    rw [walk_node]
    have hd_entry := dirLoop_events_entry cfg base (dirs.map Prod.fst) dirs
    have hf_entry := fileLoop_events_entry cfg base files files
    have hd_len : ∀ e ∈ (dirLoop cfg base (dirs.map Prod.fst) dirs).2,
        e.entry.length = base.length + 1 := by
      intro e he
      obtain ⟨n, _, hen⟩ := hd_entry e he
      simp [hen]
    have hf_len : ∀ e ∈ (fileLoop cfg base files files).2,
        e.entry.length = base.length + 1 := by
      intro e he
      obtain ⟨⟨n, _, hen⟩, _⟩ := hf_entry e he
      simp [hen]
    refine noDelDescend_append
      (noDelDescend_append (noDelDescend_of_entry_length hd_len)
        (noDelDescend_of_no_delDir fun p hp => ((hf_entry _ hp).2 p rfl).elim)
        ?_) ?_ ?_
    · intro p hp e he
      have h1 : p.length = base.length + 1 := by
        have := hd_len _ hp
        simpa using this
      exact not_strict_below_of_length (h1.trans (hf_len e he).symm)
    · exact walkEntries_noDelDescend cfg base _ dirs hnd hch ih
    · intro p hp e he
      rintro ⟨hpre, -⟩
      rcases List.mem_append.mp hp with hp | hp
      · obtain ⟨n, _, hen⟩ := hd_entry _ hp
        simp only [Event.entry] at hen
        subst hen
        obtain ⟨m, t', hmem, hfm, hme⟩ :=
          walkEntries_events cfg base (dirLoop cfg base (dirs.map Prod.fst) dirs).1 dirs e he
        obtain ⟨q, hq⟩ := walk_events_entry cfg t' (hch (m, t') hmem) (base ++ [m]) e hme
        have h2 : (base ++ [m]) <+: e.entry :=
          (List.prefix_append (base ++ [m]) [q]).trans hq
        have heq : base ++ [n] = base ++ [m] :=
          prefixes_eq_of_length hpre h2 (by simp)
        have hnm : n = m := by simpa using heq
        subst hnm
        obtain ⟨t'', hmem''⟩ := (findDir_isSome_iff n _).mp hfm
        exact dirLoop_delDir_erased cfg base (dirs.map Prod.fst) dirs n hp t'' hmem''
      · exact ((hf_entry _ hp).2 p rfl).elim

/-- Follow a component path down a tree. -/
def lookupPath : FSTree → List String → Option FSTree
  | t, [] => some t
  | t, n :: rest =>
    match findDir n t.dirs with
    | none => none
    | some t' => lookupPath t' rest

theorem walk_delDir_lookup (cfg : CleanupCfg) :
    ∀ t : FSTree, WFT t → ∀ (base : List String) (p : List String),
      Event.delDir p ∈ (walk cfg base t).2 →
        ∃ q, p = base ++ q ∧ lookupPath (walk cfg base t).1 q = none := by
  intro t hwf
  induction hwf with
  | @node dirs files hnd hnf hch ih =>
    intro base p hp
    rw [walk_node] at hp ⊢
    rcases List.mem_append.mp hp with hp | hp
    · rcases List.mem_append.mp hp with hp | hp
      · obtain ⟨n, _, hen⟩ := dirLoop_events_entry cfg base (dirs.map Prod.fst) dirs _ hp
        simp only [Event.entry] at hen
        refine ⟨[n], hen, ?_⟩
        have hnone : findDir n (walkEntries cfg base
            (dirLoop cfg base (dirs.map Prod.fst) dirs).1 dirs).1 = none := by
          rcases ho : findDir n (walkEntries cfg base
              (dirLoop cfg base (dirs.map Prod.fst) dirs).1 dirs).1 with _ | t₀
          · rfl
          · exfalso
            have hsome : (findDir n (walkEntries cfg base
                (dirLoop cfg base (dirs.map Prod.fst) dirs).1 dirs).1).isSome = true := by
              rw [ho]; rfl
            obtain ⟨t₁, ht₁⟩ := (findDir_isSome_iff n _).mp hsome
            obtain ⟨t₂, _, hfm, _⟩ := walkEntries_mem cfg base _ dirs (n, t₁) ht₁
            obtain ⟨t₃, ht₃⟩ := (findDir_isSome_iff n _).mp hfm
            exact dirLoop_delDir_erased cfg base (dirs.map Prod.fst) dirs n
              (hen ▸ hp) t₃ ht₃
        simp [lookupPath, FSTree.dirs, hnone]
      · exact ((fileLoop_events_entry cfg base files files _ hp).2 p rfl).elim
    · obtain ⟨n, t', hmem, hfm, hme⟩ :=
        walkEntries_events cfg base (dirLoop cfg base (dirs.map Prod.fst) dirs).1 dirs _ hp
      obtain ⟨q', hq'eq, hq'none⟩ := ih (n, t') hmem (base ++ [n]) p hme
      refine ⟨n :: q', by simpa using hq'eq, ?_⟩
      have hfind : findDir n (walkEntries cfg base
          (dirLoop cfg base (dirs.map Prod.fst) dirs).1 dirs).1
            = some (walk cfg (base ++ [n]) t').1 :=
        walkEntries_findDir cfg base _ dirs hnd n t' hmem hfm
      simp [lookupPath, FSTree.dirs, hfind, hq'none]

/-- C7: during the top-down cleanup walk, a directory entry whose resolved
path no longer exists is skipped with no pattern tests; an existing entry
is tested pattern by pattern, and on the first match the whole subtree is
removed from the tree, the remaining patterns are not tested for that
entry, and the walk moves on; a deleted directory is gone from the
resulting tree; and no event after a directory deletion ever concerns an
entry strictly beneath the deleted directory — the walk never descends into
an already-deleted subtree. -/
theorem walk_dir_deletion_claims (cfg : CleanupCfg) (t : FSTree) (hwf : WFT t) :
    noDelDescend (walk cfg [] t).2
    ∧ (∀ p, Event.delDir p ∈ (walk cfg [] t).2 →
        lookupPath (walk cfg [] t).1 p = none)
    ∧ (∀ (base : List String) (n : String) (rest : List String)
          (cur : List (String × FSTree)), (findDir n cur).isSome = false →
        dirLoop cfg base (n :: rest) cur
          = ((dirLoop cfg base rest cur).1,
             Event.skipDir (base ++ [n]) :: (dirLoop cfg base rest cur).2))
    ∧ (∀ (base : List String) (n : String) (rest : List String)
          (cur : List (String × FSTree)) (pat : String),
        (findDir n cur).isSome = true →
        (matchLoop cfg.fnmatch (posixRender cfg.root (base ++ [n]))
            cfg.dir_patterns).2 = some pat →
        dirLoop cfg base (n :: rest) cur
          = ((dirLoop cfg base rest (eraseDir n cur)).1,
             ((cfg.dir_patterns.takeWhile
                 (fun q => !cfg.fnmatch (posixRender cfg.root (base ++ [n])) q))
               ++ [pat]).map (Event.testDir (base ++ [n]))
               ++ Event.delDir (base ++ [n])
                 :: (dirLoop cfg base rest (eraseDir n cur)).2)) := by
  refine ⟨walk_noDelDescend cfg t hwf [], ?_, ?_, ?_⟩
  · intro p hp
    obtain ⟨q, hq, hnone⟩ := walk_delDir_lookup cfg t hwf [] p hp
    simpa [hq] using hnone
  · intro base n rest cur h
    exact dirLoop_cons_skip cfg base n rest cur h
  · intro base n rest cur pat hf hm2
    have hm := matchLoop_eq cfg.fnmatch (posixRender cfg.root (base ++ [n]))
      cfg.dir_patterns
    rw [hm] at hm2
    simp only at hm2
    have : matchLoop cfg.fnmatch (posixRender cfg.root (base ++ [n])) cfg.dir_patterns
        = ((cfg.dir_patterns.takeWhile
              (fun q => !cfg.fnmatch (posixRender cfg.root (base ++ [n])) q)) ++ [pat],
           some pat) := by
      rw [hm, hm2]
      simp [Option.toList]
    exact dirLoop_cons_del cfg base n rest cur _ pat hf this

/-- A small concrete tree exercising the C7 theorem: cleaning `/r` with the
directory pattern `/r/junk` in a tree holding `junk/sub/f.txt` and
`keep/g.txt`. -/
def walkCfgEx : CleanupCfg :=
  { fnmatch := fun path pat => path == pat
    dir_patterns := ["/r/junk"]
    file_patterns := ["/r/keep/g.txt"]
    root := "/r" }

/-- The example tree for the C7/C8 witnesses. -/
def walkTreeEx : FSTree :=
  .node [("junk", .node [("sub", .node [] ["f.txt"])] []),
         ("keep", .node [] ["g.txt"])] ["top.txt"]

theorem walkTreeEx_wf : WFT walkTreeEx := by
  refine WFT.node (by decide) (by decide) ?_
  intro e he
  simp only [walkTreeEx, List.mem_cons, List.mem_singleton,
    List.not_mem_nil, or_false] at he
  rcases he with rfl | rfl
  · refine WFT.node (by decide) (by decide) ?_
    intro e' he'
    simp only [List.mem_singleton] at he'
    subst he'
    refine WFT.node (by decide) (by decide) ?_
    intro e'' he''
    simp at he''
  · refine WFT.node (by decide) (by decide) ?_
    intro e'' he''
    simp at he''

/-- Closed witness for C7 at the concrete tree. -/
theorem walk_dir_deletion_claims_witness :
    noDelDescend (walk walkCfgEx [] walkTreeEx).2
    ∧ (∀ p, Event.delDir p ∈ (walk walkCfgEx [] walkTreeEx).2 →
        lookupPath (walk walkCfgEx [] walkTreeEx).1 p = none) :=
  ⟨(walk_dir_deletion_claims walkCfgEx walkTreeEx walkTreeEx_wf).1,
   (walk_dir_deletion_claims walkCfgEx walkTreeEx walkTreeEx_wf).2.1⟩

/-- Whether the file-pattern loop fires for the entry `n` under `base`. -/
def matchedFile (cfg : CleanupCfg) (base : List String) (n : String) : Bool :=
  (matchLoop cfg.fnmatch (posixRender cfg.root (base ++ [n])) cfg.file_patterns).2.isSome

/-- The events the file loop emits for the single entry `n`: the tested
patterns in order, then the deletion if one matched. -/
def fileEntryEvents (cfg : CleanupCfg) (base : List String) (n : String) : List Event :=
  match matchLoop cfg.fnmatch (posixRender cfg.root (base ++ [n])) cfg.file_patterns with
  | (tested, some _) =>
    tested.map (Event.testFile (base ++ [n])) ++ [Event.delFile (base ++ [n])]
  | (tested, none) => tested.map (Event.testFile (base ++ [n]))

/-- The events of the file loop that are pattern tests of the entry `q`. -/
def isTestFileAt (q : List String) : Event → Bool
  | Event.testFile p _ => p == q
  | _ => false

theorem fileLoop_spec (cfg : CleanupCfg) (base : List String) :
    ∀ (snapshot cur : List String), snapshot.Nodup →
      (∀ m ∈ snapshot, m ∈ cur) →
      fileLoop cfg base snapshot cur
        = (cur.filter (fun x => !(snapshot.contains x && matchedFile cfg base x)),
           (snapshot.map (fileEntryEvents cfg base)).flatten) := by
  intro snapshot
  induction snapshot with
  | nil =>
    intro cur _ _
    rw [fileLoop_nil]
    simp
  | cons n rest ih =>
    intro cur hnd hsub
    simp only [List.nodup_cons] at hnd
    have hcur : n ∈ cur := hsub n (List.mem_cons_self _ _)
    rcases hm : matchLoop cfg.fnmatch (posixRender cfg.root (base ++ [n]))
      cfg.file_patterns with ⟨tested, r⟩
    have hmatched : matchedFile cfg base n = r.isSome := by
      rw [matchedFile, hm]
    rcases r with _ | pat
    · rw [fileLoop_cons_keep cfg base n rest cur tested hcur hm]
      rw [ih cur hnd.2 (fun m hm' => hsub m (List.mem_cons_of_mem _ hm'))]
      rw [Prod.mk.injEq]
      constructor
      · refine List.filter_congr ?_
        intro a _
        by_cases ha : a = n
        · subst ha
          simp [hmatched, List.contains_cons, List.elem_eq_mem, hnd.1]
        · simp [List.contains_cons, ha, Ne.symm ha]
      · simp [fileEntryEvents, hm]
    · rw [fileLoop_cons_del cfg base n rest cur tested pat hcur hm]
      have hsub' : ∀ m ∈ rest, m ∈ eraseFile n cur := by
        intro m hm'
        exact mem_eraseFile.mpr
          ⟨hsub m (List.mem_cons_of_mem _ hm'), fun heq => hnd.1 (heq ▸ hm')⟩
      rw [ih (eraseFile n cur) hnd.2 hsub']
      rw [Prod.mk.injEq]
      constructor
      · rw [eraseFile, List.filter_filter]
        refine (List.filter_congr ?_).symm
        intro a _
        by_cases ha : a = n
        · subst ha
          simp [hmatched, List.contains_cons]
        · simp [List.contains_cons, ha, Ne.symm ha]
      · simp [fileEntryEvents, hm]

theorem fileEntryEvents_pred_false (cfg : CleanupCfg) (base : List String)
    {m n : String} (h : m ≠ n) :
    ∀ e ∈ fileEntryEvents cfg base m, isTestFileAt (base ++ [n]) e = false := by
  intro e he
  have hne : ((base ++ [m] : List String) == base ++ [n]) = false := by
    simp [h]
  rcases hm : matchLoop cfg.fnmatch (posixRender cfg.root (base ++ [m]))
    cfg.file_patterns with ⟨tested, r⟩
  rcases r with _ | pat
  · rw [fileEntryEvents, hm] at he
    rcases List.mem_map.mp he with ⟨pat', _, rfl⟩
    simp [isTestFileAt, hne]
  · rw [fileEntryEvents, hm] at he
    rcases List.mem_append.mp he with he | he
    · rcases List.mem_map.mp he with ⟨pat', _, rfl⟩
      simp [isTestFileAt, hne]
    · rcases List.mem_singleton.mp he with rfl
      simp [isTestFileAt]

theorem fileEntryEvents_filter_self (cfg : CleanupCfg) (base : List String)
    (n : String) :
    (fileEntryEvents cfg base n).filter (isTestFileAt (base ++ [n]))
      = (matchLoop cfg.fnmatch (posixRender cfg.root (base ++ [n]))
          cfg.file_patterns).1.map (Event.testFile (base ++ [n])) := by
  rcases hm : matchLoop cfg.fnmatch (posixRender cfg.root (base ++ [n]))
    cfg.file_patterns with ⟨tested, r⟩
  rcases r with _ | pat
  · rw [fileEntryEvents, hm]
    simp only [List.filter_map]
    rw [List.filter_eq_self.mpr]
    intro pat' _
    simp [Function.comp, isTestFileAt]
  · rw [fileEntryEvents, hm]
    rw [List.filter_append]
    simp only [List.filter_map]
    rw [List.filter_eq_self.mpr, show (([Event.delFile (base ++ [n])]).filter
        (isTestFileAt (base ++ [n]))) = [] from by simp [isTestFileAt]]
    · simp
    · intro pat' _
      simp [Function.comp, isTestFileAt]

theorem fileEvents_filter (cfg : CleanupCfg) (base : List String) (n : String) :
    ∀ snapshot : List String, snapshot.Nodup → n ∈ snapshot →
      ((snapshot.map (fileEntryEvents cfg base)).flatten).filter
          (isTestFileAt (base ++ [n]))
        = (matchLoop cfg.fnmatch (posixRender cfg.root (base ++ [n]))
            cfg.file_patterns).1.map (Event.testFile (base ++ [n])) := by
  intro snapshot
  induction snapshot with
  | nil =>
    intro _ hmem
    cases hmem
  | cons m rest ih =>
    intro hnd hmem
    simp only [List.nodup_cons] at hnd
    rw [List.map_cons, List.flatten_cons, List.filter_append]
    rcases List.mem_cons.mp hmem with rfl | hmem'
    · rw [fileEntryEvents_filter_self]
      have htail : ((rest.map (fileEntryEvents cfg base)).flatten).filter
          (isTestFileAt (base ++ [n])) = [] := by
        rw [List.filter_eq_nil_iff]
        intro e he
        rcases List.mem_flatten.mp he with ⟨l, hl, hel⟩
        rcases List.mem_map.mp hl with ⟨k, hk, rfl⟩
        have hkn : k ≠ n := fun h => hnd.1 (h ▸ hk)
        simp [fileEntryEvents_pred_false cfg base hkn e hel]
      rw [htail, List.append_nil]
    · have hmn : m ≠ n := fun h => hnd.1 (h ▸ hmem')
      have hhead : (fileEntryEvents cfg base m).filter (isTestFileAt (base ++ [n])) = [] := by
        rw [List.filter_eq_nil_iff]
        intro e he
        simp [fileEntryEvents_pred_false cfg base hmn e he]
      rw [hhead, List.nil_append]
      exact ih hnd.2 hmem'

/-- C6: in the file pass of the cleanup walk over the listed files of a
node, a listed file is deleted exactly when its resolved POSIX path matches
at least one file pattern under the abstract glob matcher; a file matching
no pattern is left in place; and the patterns actually tested for an entry
are precisely those up to and including the first matching one (the loop
breaks at the first match, so later patterns are never consulted). -/
theorem fileLoop_delete_claims (cfg : CleanupCfg) (base : List String)
    (files : List String) (n : String) (hnd : files.Nodup) (hmem : n ∈ files) :
    (n ∉ (fileLoop cfg base files files).1
        ↔ ∃ pat ∈ cfg.file_patterns,
            cfg.fnmatch (posixRender cfg.root (base ++ [n])) pat = true)
    ∧ ((∀ pat ∈ cfg.file_patterns,
          ¬cfg.fnmatch (posixRender cfg.root (base ++ [n])) pat = true) →
        n ∈ (fileLoop cfg base files files).1)
    ∧ (fileLoop cfg base files files).2.filter (isTestFileAt (base ++ [n]))
        = (cfg.file_patterns.takeWhile
              (fun pat => !cfg.fnmatch (posixRender cfg.root (base ++ [n])) pat)
            ++ (cfg.file_patterns.find?
                  (cfg.fnmatch (posixRender cfg.root (base ++ [n])))).toList).map
            (Event.testFile (base ++ [n])) := by
  have hspec := fileLoop_spec cfg base files files hnd (fun _ h => h)
  have hiff : n ∉ (fileLoop cfg base files files).1
      ↔ ∃ pat ∈ cfg.file_patterns,
          cfg.fnmatch (posixRender cfg.root (base ++ [n])) pat = true := by
    rw [hspec]
    simp only [List.mem_filter, not_and, Bool.not_eq_true]
    constructor
    · intro h
      have hmfile : matchedFile cfg base n = true := by
        have hh := h hmem
        by_contra hc
        have hc' : matchedFile cfg base n = false := by
          simpa using hc
        rw [hc', Bool.and_false] at hh
        simp at hh
      exact (matchLoop_isSome_iff cfg.fnmatch _ cfg.file_patterns).mp hmfile
    · intro hex hn
      have hmfile : matchedFile cfg base n = true :=
        (matchLoop_isSome_iff cfg.fnmatch _ cfg.file_patterns).mpr hex
      simp [List.elem_eq_mem, hmem, hmfile]
  refine ⟨hiff, ?_, ?_⟩
  · intro hnone
    by_contra hne
    obtain ⟨pat, hpat, hfm⟩ := hiff.mp hne
    exact hnone pat hpat hfm
  · rw [hspec]
    have := fileEvents_filter cfg base n files hnd hmem
    simp only at this ⊢
    rw [this, matchLoop_eq]

/-- Closed witness for C6 at a concrete file listing. -/
theorem fileLoop_delete_claims_witness :
    (["g.txt", "h.txt"] : List String).Nodup ∧ "g.txt" ∈ (["g.txt", "h.txt"] : List String) ∧
      ("g.txt" ∉ (fileLoop walkCfgEx ["keep"] ["g.txt", "h.txt"] ["g.txt", "h.txt"]).1
        ↔ ∃ pat ∈ walkCfgEx.file_patterns,
            walkCfgEx.fnmatch (posixRender walkCfgEx.root (["keep"] ++ ["g.txt"])) pat = true) :=
  ⟨by decide, by decide,
   (fileLoop_delete_claims walkCfgEx ["keep"] ["g.txt", "h.txt"] "g.txt"
      (by decide) (by decide)).1⟩

/-! ### C9 — the `except FileNotFoundError: pass` around `os.remove`

To speak about the deletion race the file loop is replayed with an oracle
for what each `os.remove` call does (`ok`: the file is removed; `notFound`:
it vanished between the existence check and the call, so the call raises
`FileNotFoundError`; `err`: any other `OSError`), and an oracle for the
`path.exists()` pre-check.  Any uncaught exception aborts the walk, so the
loop returns `Except`. -/

inductive RemoveOutcome where
  | ok
  | notFound
  | err (msg : String)
deriving DecidableEq

/-- Embedding of `try: os.remove(str(path)) except FileNotFoundError:
pass`: a missing file is swallowed, any other error propagates. -/
def attemptRemove : RemoveOutcome → Except String Unit
  | .ok => .ok ()
  | .notFound => .ok ()
  | .err e => .error e

/-- The file loop of `pre_archive_cleanup` under the remove/exists
oracles, returning the emitted events or the propagated error. -/
def fileLoopRace (cfg : CleanupCfg) (base : List String)
    (existsO : String → Bool) (removeO : String → RemoveOutcome) :
    List String → Except String (List Event)
  | [] => .ok []
  | n :: rest =>
    if existsO n then
      match matchLoop cfg.fnmatch (posixRender cfg.root (base ++ [n])) cfg.file_patterns with
      | (tested, some _) =>
        match attemptRemove (removeO n) with
        | .ok _ =>
          match fileLoopRace cfg base existsO removeO rest with
          | .ok evs => .ok (tested.map (Event.testFile (base ++ [n]))
              ++ Event.delFile (base ++ [n]) :: evs)
          | .error e => .error e
        | .error e => .error e
      | (tested, none) =>
        match fileLoopRace cfg base existsO removeO rest with
        | .ok evs => .ok (tested.map (Event.testFile (base ++ [n])) ++ evs)
        | .error e => .error e
    else
      match fileLoopRace cfg base existsO removeO rest with
      | .ok evs => .ok (Event.skipFile (base ++ [n]) :: evs)
      | .error e => .error e

/-- C9: the `FileNotFoundError` raised when a file selected for deletion
has already disappeared is swallowed — the walk records the deletion and
continues with the remaining entries exactly as if the remove had
succeeded, and a run in which no remove raises another error always
completes; any other `OSError` from the remove is not caught and
propagates, aborting the loop. -/
theorem fileLoopRace_claims (cfg : CleanupCfg) (base : List String)
    (existsO : String → Bool) (removeO : String → RemoveOutcome) :
    (attemptRemove RemoveOutcome.notFound = Except.ok ())
    ∧ (∀ (n : String) (rest : List String),
        existsO n = true → removeO n = RemoveOutcome.notFound →
        fileLoopRace cfg base existsO removeO (n :: rest)
          = fileLoopRace cfg base existsO
              (fun m => if m = n then RemoveOutcome.ok else removeO m) (n :: rest)
            ∨ n ∈ rest)
    ∧ (∀ (n : String) (rest : List String) (e : String),
        existsO n = true →
        (matchLoop cfg.fnmatch (posixRender cfg.root (base ++ [n]))
            cfg.file_patterns).2.isSome = true →
        removeO n = RemoveOutcome.err e →
        fileLoopRace cfg base existsO removeO (n :: rest) = Except.error e)
    ∧ ((∀ n : String, ∀ e : String, removeO n ≠ RemoveOutcome.err e) →
        ∀ l : List String, ∃ evs, fileLoopRace cfg base existsO removeO l
          = Except.ok evs) := by
  have hsucc : ∀ l : List String, (∀ n ∈ l, ∀ e : String, removeO n ≠ RemoveOutcome.err e) →
      ∃ evs, fileLoopRace cfg base existsO removeO l = Except.ok evs := by
    intro l
    induction l with
    | nil => intro _; exact ⟨[], rfl⟩
    | cons n rest ih =>
      intro hne
      obtain ⟨evs, hevs⟩ := ih fun m hm => hne m (List.mem_cons_of_mem _ hm)
      have hrem : attemptRemove (removeO n) = Except.ok () := by
        rcases hr : removeO n with _ | _ | e
        · rfl
        · rfl
        · exact absurd hr (hne n (List.mem_cons_self _ _) e)
      by_cases hex : existsO n = true
      · rcases hm : matchLoop cfg.fnmatch (posixRender cfg.root (base ++ [n]))
          cfg.file_patterns with ⟨tested, r⟩
        rcases r with _ | pat
        · refine ⟨tested.map (Event.testFile (base ++ [n])) ++ evs, ?_⟩
          simp [fileLoopRace, hex, hm, hevs]
        · refine ⟨tested.map (Event.testFile (base ++ [n]))
            ++ Event.delFile (base ++ [n]) :: evs, ?_⟩
          simp [fileLoopRace, hex, hm, hrem, hevs]
      · refine ⟨Event.skipFile (base ++ [n]) :: evs, ?_⟩
        simp [fileLoopRace, hex, hevs]
  refine ⟨rfl, ?_, ?_, ?_⟩
  · intro n rest hex hnf
    by_cases hmemr : n ∈ rest
    · exact Or.inr hmemr
    refine Or.inl ?_
    have hrest : fileLoopRace cfg base existsO
        (fun m => if m = n then RemoveOutcome.ok else removeO m) rest
          = fileLoopRace cfg base existsO removeO rest := by
      clear hnf
      induction rest with
      | nil => rfl
      | cons m rest' ih =>
        have hmn : m ≠ n := fun h => hmemr (h ▸ List.mem_cons_self _ _)
        have ih' := ih fun h => hmemr (List.mem_cons_of_mem _ h)
        by_cases hex' : existsO m = true
        · rcases hmm : matchLoop cfg.fnmatch (posixRender cfg.root (base ++ [m]))
            cfg.file_patterns with ⟨tested, r⟩
          rcases r with _ | pat
          · simp [fileLoopRace, hex', hmm, ih']
          · simp [fileLoopRace, hex', hmm, hmn, ih']
        · simp [fileLoopRace, hex', ih']
    rcases hm : matchLoop cfg.fnmatch (posixRender cfg.root (base ++ [n]))
      cfg.file_patterns with ⟨tested, r⟩
    rcases r with _ | pat
    · simp [fileLoopRace, hex, hm, hrest]
    · simp [fileLoopRace, hex, hm, hnf, attemptRemove, hrest]
  · intro n rest e hex hsome hrem
    rcases hm : matchLoop cfg.fnmatch (posixRender cfg.root (base ++ [n]))
      cfg.file_patterns with ⟨tested, r⟩
    rcases r with _ | pat
    · rw [hm] at hsome
      simp at hsome
    · simp [fileLoopRace, hex, hm, hrem, attemptRemove]
  · intro hne l
    exact hsucc l fun n _ => hne n

/-- Closed witness for C9: a two-file listing where the first remove hits
the race (`notFound`) and nothing errors; the loop completes. -/
theorem fileLoopRace_claims_witness :
    (∀ n : String, ∀ e : String,
        (fun m => if m = "g.txt" then RemoveOutcome.notFound else RemoveOutcome.ok) n
          ≠ RemoveOutcome.err e)
    ∧ ∃ evs, fileLoopRace walkCfgEx ["keep"] (fun _ => true)
        (fun m => if m = "g.txt" then RemoveOutcome.notFound else RemoveOutcome.ok)
        ["g.txt", "h.txt"] = Except.ok evs := by
  have hne : ∀ n : String, ∀ e : String,
      (fun m => if m = "g.txt" then RemoveOutcome.notFound else RemoveOutcome.ok) n
        ≠ RemoveOutcome.err e := by
    intro n e
    by_cases h : n = "g.txt" <;> simp [h]
  exact ⟨hne, (fileLoopRace_claims walkCfgEx ["keep"] (fun _ => true)
    (fun m => if m = "g.txt" then RemoveOutcome.notFound else RemoveOutcome.ok)).2.2.2
      hne ["g.txt", "h.txt"]⟩

/-! ### C8 — idempotence of the cleanup walk -/

theorem dirLoop_result_unmatched (cfg : CleanupCfg) (base : List String) :
    ∀ (snapshot : List String) (cur : List (String × FSTree)), snapshot.Nodup →
      ∀ e ∈ (dirLoop cfg base snapshot cur).1,
        e ∈ cur ∧ (e.1 ∈ snapshot →
          (matchLoop cfg.fnmatch (posixRender cfg.root (base ++ [e.1]))
            cfg.dir_patterns).2 = none) := by
  intro snapshot
  induction snapshot with
  | nil =>
    intro cur _ e he
    rw [dirLoop_nil] at he
    exact ⟨he, fun h => absurd h (List.not_mem_nil _)⟩
  | cons n rest ih =>
    intro cur hnd e he
    simp only [List.nodup_cons] at hnd
    by_cases hf : (findDir n cur).isSome = true
    · rcases hm : matchLoop cfg.fnmatch (posixRender cfg.root (base ++ [n]))
        cfg.dir_patterns with ⟨tested, r⟩
      rcases r with _ | pat
      · rw [dirLoop_cons_keep cfg base n rest cur tested hf hm] at he
        obtain ⟨hin, himpl⟩ := ih cur hnd.2 e he
        refine ⟨hin, ?_⟩
        intro hmem
        rcases List.mem_cons.mp hmem with heq | hmem'
        · rw [heq, hm]
        · exact himpl hmem'
      · rw [dirLoop_cons_del cfg base n rest cur tested pat hf hm] at he
        obtain ⟨hin, himpl⟩ := ih (eraseDir n cur) hnd.2 e he
        obtain ⟨hin', hne⟩ := mem_eraseDir.mp hin
        refine ⟨hin', ?_⟩
        intro hmem
        rcases List.mem_cons.mp hmem with heq | hmem'
        · exact absurd heq hne
        · exact himpl hmem'
    · rw [dirLoop_cons_skip cfg base n rest cur (by simpa using hf)] at he
      obtain ⟨hin, himpl⟩ := ih cur hnd.2 e he
      refine ⟨hin, ?_⟩
      intro hmem
      rcases List.mem_cons.mp hmem with heq | hmem'
      · exfalso
        apply hf
        refine (findDir_isSome_iff n cur).mpr ⟨e.2, ?_⟩
        have : (e.1, e.2) ∈ cur := by
          rcases e with ⟨a, b⟩
          exact hin
        rwa [heq] at this
      · exact himpl hmem'

/-- Directory tree on which the configured patterns fire nowhere: every
subdirectory and file, recursively, matches no pattern.  This is exactly
the state in which the walk is a no-op. -/
inductive CleanT (cfg : CleanupCfg) : List String → FSTree → Prop where
  | node {base : List String} {dirs : List (String × FSTree)} {files : List String} :
      (∀ e ∈ dirs,
        (matchLoop cfg.fnmatch (posixRender cfg.root (base ++ [e.1]))
          cfg.dir_patterns).2 = none) →
      (∀ e ∈ dirs, CleanT cfg (base ++ [e.1]) e.2) →
      (∀ f ∈ files,
        (matchLoop cfg.fnmatch (posixRender cfg.root (base ++ [f]))
          cfg.file_patterns).2 = none) →
      CleanT cfg base (.node dirs files)

theorem walk_clean (cfg : CleanupCfg) :
    ∀ t : FSTree, WFT t → ∀ base : List String,
      CleanT cfg base (walk cfg base t).1 := by
  intro t hwf
  induction hwf with
  | @node dirs files hnd hnf hch ih =>
    intro base
    rw [walk_node]
    refine CleanT.node ?_ ?_ ?_
    · intro e he
      obtain ⟨t', hmem, hfm, -⟩ := walkEntries_mem cfg base _ dirs e he
      obtain ⟨t₃, ht₃⟩ := (findDir_isSome_iff e.1 _).mp hfm
      obtain ⟨-, himpl⟩ :=
        dirLoop_result_unmatched cfg base (dirs.map Prod.fst) dirs hnd (e.1, t₃) ht₃
      exact himpl (List.mem_map.mpr ⟨(e.1, t'), hmem, rfl⟩)
    · intro e he
      obtain ⟨t', hmem, -, hxe⟩ := walkEntries_mem cfg base _ dirs e he
      rw [hxe]
      exact ih (e.1, t') hmem (base ++ [e.1])
    · intro f hfm
      have hspec := fileLoop_spec cfg base files files hnf (fun _ h => h)
      rw [hspec] at hfm
      simp only [List.mem_filter] at hfm
      rcases hfm with ⟨hfin, hpred⟩
      have hcontains : files.contains f = true := by
        simpa [List.elem_eq_mem] using hfin
      have : matchedFile cfg base f = false := by
        by_contra hc
        have hc' : matchedFile cfg base f = true := by simpa using hc
        rw [hcontains, hc'] at hpred
        simp at hpred
      rcases ho : (matchLoop cfg.fnmatch (posixRender cfg.root (base ++ [f]))
          cfg.file_patterns).2 with _ | x
      · rfl
      · exfalso
        rw [matchedFile, ho] at this
        simp at this

theorem dirLoop_nodelete (cfg : CleanupCfg) (base : List String) :
    ∀ (snapshot : List String) (cur : List (String × FSTree)),
      (∀ n ∈ snapshot,
        (matchLoop cfg.fnmatch (posixRender cfg.root (base ++ [n]))
          cfg.dir_patterns).2 = none) →
      (dirLoop cfg base snapshot cur).1 = cur ∧
        ∀ e ∈ (dirLoop cfg base snapshot cur).2,
          (∀ p, e ≠ Event.delDir p) ∧ ∀ p, e ≠ Event.delFile p := by
  intro snapshot
  induction snapshot with
  | nil =>
    intro cur _
    rw [dirLoop_nil]
    exact ⟨rfl, fun e he => absurd he (List.not_mem_nil _)⟩
  | cons n rest ih =>
    intro cur hnone
    rcases hm : matchLoop cfg.fnmatch (posixRender cfg.root (base ++ [n]))
      cfg.dir_patterns with ⟨tested, r⟩
    have hrnone : r = none := by
      have := hnone n (List.mem_cons_self _ _)
      rw [hm] at this
      exact this
    subst hrnone
    obtain ⟨ihres, ihev⟩ := ih cur fun m hm' => hnone m (List.mem_cons_of_mem _ hm')
    by_cases hf : (findDir n cur).isSome = true
    · rw [dirLoop_cons_keep cfg base n rest cur tested hf hm]
      refine ⟨ihres, ?_⟩
      intro e he
      rcases List.mem_append.mp he with he | he
      · rcases List.mem_map.mp he with ⟨pat', _, rfl⟩
        refine ⟨?_, ?_⟩ <;> intro p h <;> cases h
      · exact ihev e he
    · rw [dirLoop_cons_skip cfg base n rest cur (by simpa using hf)]
      refine ⟨ihres, ?_⟩
      intro e he
      rcases List.mem_cons.mp he with rfl | he
      · refine ⟨?_, ?_⟩ <;> intro p h <;> cases h
      · exact ihev e he

theorem fileLoop_nodelete (cfg : CleanupCfg) (base : List String) :
    ∀ (snapshot cur : List String),
      (∀ n ∈ snapshot,
        (matchLoop cfg.fnmatch (posixRender cfg.root (base ++ [n]))
          cfg.file_patterns).2 = none) →
      (fileLoop cfg base snapshot cur).1 = cur ∧
        ∀ e ∈ (fileLoop cfg base snapshot cur).2,
          (∀ p, e ≠ Event.delDir p) ∧ ∀ p, e ≠ Event.delFile p := by
  intro snapshot
  induction snapshot with
  | nil =>
    intro cur _
    rw [fileLoop_nil]
    exact ⟨rfl, fun e he => absurd he (List.not_mem_nil _)⟩
  | cons n rest ih =>
    intro cur hnone
    rcases hm : matchLoop cfg.fnmatch (posixRender cfg.root (base ++ [n]))
      cfg.file_patterns with ⟨tested, r⟩
    have hrnone : r = none := by
      have := hnone n (List.mem_cons_self _ _)
      rw [hm] at this
      exact this
    subst hrnone
    obtain ⟨ihres, ihev⟩ := ih cur fun m hm' => hnone m (List.mem_cons_of_mem _ hm')
    by_cases hf : n ∈ cur
    · rw [fileLoop_cons_keep cfg base n rest cur tested hf hm]
      refine ⟨ihres, ?_⟩
      intro e he
      rcases List.mem_append.mp he with he | he
      · rcases List.mem_map.mp he with ⟨pat', _, rfl⟩
        refine ⟨?_, ?_⟩ <;> intro p h <;> cases h
      · exact ihev e he
    · rw [fileLoop_cons_skip cfg base n rest cur hf]
      refine ⟨ihres, ?_⟩
      intro e he
      rcases List.mem_cons.mp he with rfl | he
      · refine ⟨?_, ?_⟩ <;> intro p h <;> cases h
      · exact ihev e he

theorem walkEntries_id (cfg : CleanupCfg) (base : List String)
    (surv : List (String × FSTree)) :
    ∀ l : List (String × FSTree),
      (∀ e ∈ l, (findDir e.1 surv).isSome = true) →
      (∀ e ∈ l, (walk cfg (base ++ [e.1]) e.2).1 = e.2) →
      (∀ e ∈ l, ∀ ev ∈ (walk cfg (base ++ [e.1]) e.2).2,
        (∀ p, ev ≠ Event.delDir p) ∧ ∀ p, ev ≠ Event.delFile p) →
      (walkEntries cfg base surv l).1 = l ∧
        ∀ ev ∈ (walkEntries cfg base surv l).2,
          (∀ p, ev ≠ Event.delDir p) ∧ ∀ p, ev ≠ Event.delFile p := by
  intro l
  induction l with
  | nil =>
    intro _ _ _
    rw [walkEntries_nil]
    exact ⟨rfl, fun e he => absurd he (List.not_mem_nil _)⟩
  | cons y rest ih =>
    rcases y with ⟨n, t⟩
    intro hfd hid hev
    have hf : (findDir n surv).isSome = true := hfd (n, t) (List.mem_cons_self _ _)
    rw [walkEntries_cons_desc cfg base surv n t rest hf]
    obtain ⟨ihres, ihev⟩ := ih (fun e he => hfd e (List.mem_cons_of_mem _ he))
      (fun e he => hid e (List.mem_cons_of_mem _ he))
      (fun e he => hev e (List.mem_cons_of_mem _ he))
    constructor
    · rw [ihres, hid (n, t) (List.mem_cons_self _ _)]
    · intro ev hevmem
      rcases List.mem_append.mp hevmem with h | h
      · exact hev (n, t) (List.mem_cons_self _ _) ev h
      · exact ihev ev h

theorem walk_of_clean (cfg : CleanupCfg) :
    ∀ (t : FSTree) (base : List String), CleanT cfg base t →
      (walk cfg base t).1 = t ∧
        ∀ ev ∈ (walk cfg base t).2,
          (∀ p, ev ≠ Event.delDir p) ∧ ∀ p, ev ≠ Event.delFile p := by
  intro t base hclean
  induction hclean with
  | @node base dirs files hd hC hf ih =>
    obtain ⟨hdres, hdev⟩ := dirLoop_nodelete cfg base (dirs.map Prod.fst) dirs
      (by
        intro n hn
        rcases List.mem_map.mp hn with ⟨e, he, rfl⟩
        exact hd e he)
    obtain ⟨hfres, hfev⟩ := fileLoop_nodelete cfg base files files hf
    obtain ⟨hwres, hwev⟩ := walkEntries_id cfg base
      (dirLoop cfg base (dirs.map Prod.fst) dirs).1 dirs
      (by
        intro e he
        rw [hdres]
        refine (findDir_isSome_iff e.1 dirs).mpr ⟨e.2, ?_⟩
        rcases e with ⟨a, b⟩
        exact he)
      (fun e he => (ih e he).1)
      (fun e he => (ih e he).2)
    constructor
    · rw [walk_node]
      simp only
      rw [hwres, hfres]
    · rw [walk_node]
      intro ev hev
      rcases List.mem_append.mp hev with hev | hev
      · rcases List.mem_append.mp hev with hev | hev
        · exact hdev ev hev
        · exact hfev ev hev
      · exact hwev ev hev

/-- C8: `pre_archive_cleanup` is idempotent — running the walk a second
time on the tree the first run left behind deletes nothing (no directory
or file deletion event occurs) and leaves the tree unchanged. -/
theorem walk_idempotent (cfg : CleanupCfg) (t : FSTree) (hwf : WFT t)
    (base : List String) :
    (walk cfg base (walk cfg base t).1).1 = (walk cfg base t).1 ∧
      ∀ ev ∈ (walk cfg base (walk cfg base t).1).2,
        (∀ p, ev ≠ Event.delDir p) ∧ ∀ p, ev ≠ Event.delFile p :=
  walk_of_clean cfg (walk cfg base t).1 base (walk_clean cfg t hwf base)

/-- Closed witness for C8 at the concrete tree of the C7 witness. -/
theorem walk_idempotent_witness :
    (walk walkCfgEx [] (walk walkCfgEx [] walkTreeEx).1).1
      = (walk walkCfgEx [] walkTreeEx).1 :=
  (walk_idempotent walkCfgEx walkTreeEx walkTreeEx_wf []).1
